import Mathlib

/-!
Verification of the gaia fiber-aware I/O runtime against its specification.

Each section embeds one component of the C++ source as executable Lean
definitions (machine integers become Nat/Int, fallible paths become explicit
outcome types, stateful loops become state-passing recursion) and proves the
spec claims about it.
-/

set_option autoImplicit false

namespace Gaia

/-! ### round_robin scheduler: the sentinel suspend timer

Embedded from `round_robin::suspend_until` in examples/asio_fibers.cc.
The asio `steady_timer` is modelled by its observable state: the current
expiry, whether an async wait is pending, how many times `expires_at` plus
`async_wait` re-armed it, and how many pending waits were cancelled (each
such cancellation fires the old handler with operation_aborted, which is
exactly the oscillation the source comment warns about).  `abs_time` is
`Option Nat`, with `none` standing for `steady_clock::time_point::max()`.
-/

structure TimerState where
  expiry : Option Nat
  waitPending : Bool
  arms : Nat
  aborted : Nat
deriving DecidableEq, Repr

def timerStart : TimerState := ⟨none, false, 0, 0⟩

/-- Model of `steady_timer::expires_at`: cancels any pending wait (its
handler fires with operation_aborted) and records the new expiry. -/
def expiresAt (t : Nat) (s : TimerState) : TimerState :=
  { expiry := some t
    waitPending := false
    arms := s.arms
    aborted := s.aborted + (if s.waitPending then 1 else 0) }

/-- Model of `steady_timer::async_wait`: registers a pending wait. -/
def asyncWait (s : TimerState) : TimerState :=
  { s with waitPending := true, arms := s.arms + 1 }

/-- Embedding of `round_robin::suspend_until`: for a finite `abs_time` the
code unconditionally calls `expires_at(abs_time)` followed by `async_wait`;
for `time_point::max()` it leaves the timer alone.  (The trailing
`cnd_.notify_one()` does not touch the timer and is omitted.) -/
def suspend_until (absTime : Option Nat) (s : TimerState) : TimerState :=
  match absTime with
  | none => s
  | some t => asyncWait (expiresAt t s)

/-- C1: the claim says a second `suspend_until` with the same finite deadline
is a no-op on the sentinel timer.  The code re-arms unconditionally: calling
`suspend_until` twice with deadline 100 changes the timer state again, arms
it a second time and cancels the first pending wait (so the old handler runs
with operation_aborted — the busy oscillation the source comment describes).
This contradicts the claim and the intent stated in the source comment. -/
theorem suspend_until_same_deadline_not_noop :
    suspend_until (some 100) (suspend_until (some 100) timerStart) ≠
      suspend_until (some 100) timerStart ∧
    (suspend_until (some 100) (suspend_until (some 100) timerStart)).arms = 2 ∧
    (suspend_until (some 100) (suspend_until (some 100) timerStart)).aborted = 1 := by
  refine ⟨?_, rfl, rfl⟩
  decide

/-! ### Pipeline::Executor::MapFiber record counting

Embedded from `Pipeline::Executor::MapFiber` in the pipeline executor
source.  The fiber pops records until the queue closes; per record it
executes:

  `++record_num; if (map_limit && record_num > map_limit) continue;`
  `do_fn(record); if (++record_num % 1000 == 0) yield;`

Note that `record_num` is incremented a second time after each invocation
of the user function.  Record contents do not influence the control flow,
so the queue is modelled by the number of records it delivers; the result
is the pair (user-function invocations, records discarded). -/

def mapFiberRun (mapLimit : Nat) : Nat → Nat → Nat × Nat
  | 0, _ => (0, 0)
  | n + 1, recordNum =>
    let r1 := recordNum + 1
    if mapLimit ≠ 0 ∧ r1 > mapLimit then
      let p := mapFiberRun mapLimit n r1
      (p.1, p.2 + 1)
    else
      let p := mapFiberRun mapLimit n (r1 + 1)
      (p.1 + 1, p.2)

def mapFiberCounts (mapLimit numRecords : Nat) : Nat × Nat :=
  mapFiberRun mapLimit numRecords 0

/-- C2: the claim (and the spec scenario) say that with `map_limit = 5` each
reactor maps exactly its first 5 records, 10 invocations over 2 reactors of
50 records each, 90 skipped.  Because `record_num` is incremented twice per
mapped record, the code maps only records number 1, 2 and 3 on each reactor:
3 invocations per reactor, 6 over two reactors, and 94 records discarded. -/
theorem mapFiber_limit_five_counts :
    mapFiberCounts 5 50 = (3, 47) ∧
    (mapFiberCounts 5 50).1 + (mapFiberCounts 5 50).1 = 6 ∧
    (mapFiberCounts 5 50).2 + (mapFiberCounts 5 50).2 = 94 := by
  refine ⟨by decide, by decide, by decide⟩

/-! ### URingManager submission-queue exhaustion

Embedded from `URingManager::GetSubmit` and the constructor: the ring is
created with `io_uring_queue_init_params(4096, ...)`, so `io_uring_get_sqe`
returns null once 4096 submissions are in flight, and `GetSubmit` runs
`CHECK(sqe) << "TBD: To handle ring overflow"`, which aborts the process. -/

def SQE_CAPACITY : Nat := 4096

/-- Model of `io_uring_get_sqe`: a fresh SQE while the ring has room,
null (`none`) once `SQE_CAPACITY` submissions are already in flight. -/
def io_uring_get_sqe (inFlight : Nat) : Option Nat :=
  if inFlight < SQE_CAPACITY then some inFlight else none

inductive SubmitOutcome
  | got (sqe : Nat)
  | processAborted
deriving DecidableEq, Repr

/-- Embedding of `URingManager::GetSubmit`: a failed `CHECK` is a process
abort. -/
def GetSubmit (inFlight : Nat) : SubmitOutcome :=
  match io_uring_get_sqe inFlight with
  | some sqe => .got sqe
  | none => .processAborted

/-- C3: the claim says that on SQE-ring exhaustion the submitter awaits
capacity instead of crashing.  The code instead aborts the process through
`CHECK(sqe)` (its own message says "TBD: To handle ring overflow"): with
4096 submissions in flight the next `GetSubmit` is a process abort, while
one slot below capacity it still hands out an SQE. -/
theorem getSubmit_overflow_aborts :
    GetSubmit 4096 = SubmitOutcome.processAborted ∧
    GetSubmit 4095 = SubmitOutcome.got 4095 := by
  refine ⟨by decide, by decide⟩

/-! ### RedisConnection state machine

Embedded from `RedisConnection::Handle`, `InitiateRead` and `InitiateWrite`.
The observable effects of one completion delivery are the side-effect
actions performed, in order, plus the resulting connection state.
`InitiateRead` always submits a recvmsg SQE and sets the state to READ;
`InitiateWrite` submits a sendmsg SQE and, in linked mode, chains a poll-add
and returns to WAIT_READ, otherwise moves to WRITE.  `event->Set(nullptr)`
drops the strong reference the callback held, destroying the connection. -/

inductive ConnState
  | WAIT_READ
  | READ
  | WRITE
deriving DecidableEq, Repr

inductive ConnAction
  | initiateRead
  | initiateWrite
  | addPollIn
  | shutdownRDWR
  | closeSocket
  | clearStrongRef
deriving DecidableEq, Repr

inductive HandleOutcome
  | live (next : ConnState)
  | destroyed
  | checkFailed
deriving DecidableEq, Repr

/-- Embedding of `RedisConnection::Handle`.  `res` is the completion result,
`decodeOk` the outcome of `cmd_.Decode(res)` on a successful read, `linked`
the `FLAGS_linked_ske` mode. -/
def redisHandle (linked : Bool) (st : ConnState) (res : Int) (decodeOk : Bool) :
    List ConnAction × HandleOutcome :=
  match st with
  | .WAIT_READ =>
    if 0 < res then ([.initiateRead], .live .READ)
    else ([], .checkFailed)
  | .READ =>
    if 0 < res then
      if decodeOk then
        if linked then ([.initiateWrite, .addPollIn], .live .WAIT_READ)
        else ([.initiateWrite], .live .WRITE)
      else ([.initiateRead], .live .READ)
    else ([.shutdownRDWR, .closeSocket, .clearStrongRef], .destroyed)
  | .WRITE =>
    if 0 < res then ([.addPollIn], .live .WAIT_READ)
    else ([], .checkFailed)

/-- C6: every completion with result ≤ 0 delivered in state READ performs,
in order, `shutdown(SHUT_RDWR)`, `close`, and the clearing of the strong
reference that kept the connection alive (destroying it), and initiates no
further read or write on the socket. -/
theorem redisHandle_read_error_closes (linked : Bool) (res : Int) (decodeOk : Bool)
    (h : res ≤ 0) :
    redisHandle linked .READ res decodeOk =
      ([.shutdownRDWR, .closeSocket, .clearStrongRef], .destroyed) ∧
    ConnAction.initiateRead ∉ (redisHandle linked .READ res decodeOk).1 ∧
    ConnAction.initiateWrite ∉ (redisHandle linked .READ res decodeOk).1 := by
  have hres : ¬ (0 < res) := not_lt.mpr h
  refine ⟨?_, ?_, ?_⟩ <;> simp [redisHandle, hres]

/-- Witness for C6 at the concrete EOF completion `res = 0`. -/
theorem redisHandle_read_error_closes_witness :
    redisHandle false .READ 0 false =
      ([.shutdownRDWR, .closeSocket, .clearStrongRef], .destroyed) ∧
    ConnAction.initiateRead ∉ (redisHandle false .READ 0 false).1 ∧
    ConnAction.initiateWrite ∉ (redisHandle false .READ 0 false).1 :=
  redisHandle_read_error_closes false 0 false (by decide)

/-! ### round_robin ready queue and counter

Embedded from `round_robin::awakened`, `pick_next` and `has_ready_fibers`.
A fiber context is reduced to the one field the scheduler inspects, the
dispatcher flag, plus an id.  The ready queue is the FIFO list of linked
contexts; `counter_` is a Nat, as `std::size_t` in the source. -/

structure Fiber where
  id : Nat
  dispatcher : Bool
deriving DecidableEq, Repr

structure SchedState where
  rqueue : List Fiber
  counter : Nat
deriving DecidableEq, Repr

def schedStart : SchedState := ⟨[], 0⟩

/-- Embedding of `round_robin::awakened`: link at the tail of the ready
queue, increment the counter unless the fiber is the dispatcher context. -/
def awakened (f : Fiber) (s : SchedState) : SchedState :=
  { rqueue := s.rqueue ++ [f]
    counter := if f.dispatcher then s.counter else s.counter + 1 }

/-- Embedding of `round_robin::pick_next`: pop the head of the ready queue,
decrement the counter unless the popped fiber is the dispatcher context. -/
def pick_next (s : SchedState) : Option Fiber × SchedState :=
  match s.rqueue with
  | [] => (none, s)
  | f :: rest =>
    (some f, { rqueue := rest
               counter := if f.dispatcher then s.counter else s.counter - 1 })

/-- Embedding of `round_robin::has_ready_fibers`: `0 < counter_`. -/
def has_ready_fibers (s : SchedState) : Bool := decide (0 < s.counter)

inductive SchedOp
  | awaken (f : Fiber)
  | pick
deriving DecidableEq, Repr

def applySchedOp (s : SchedState) : SchedOp → SchedState
  | .awaken f => awakened f s
  | .pick => (pick_next s).2

/-- Number of non-dispatcher fibers currently linked in the ready queue. -/
def readyCount (s : SchedState) : Nat :=
  (s.rqueue.filter fun f => !f.dispatcher).length

def schedInv (s : SchedState) : Prop := s.counter = readyCount s

theorem schedInv_apply (s : SchedState) (op : SchedOp) (h : schedInv s) :
    schedInv (applySchedOp s op) := by
  cases op with
  | awaken f =>
    unfold schedInv readyCount at *
    cases hd : f.dispatcher <;>
      simp [applySchedOp, awakened, hd, List.filter_append, h]
  | pick =>
    unfold schedInv readyCount at *
    cases hq : s.rqueue with
    | nil => simpa [applySchedOp, pick_next, hq] using h
    | cons f rest =>
      cases hd : f.dispatcher <;>
        simp_all [applySchedOp, pick_next, hq, hd, List.filter_cons]

theorem schedInv_foldl (ops : List SchedOp) :
    ∀ s : SchedState, schedInv s → schedInv (ops.foldl applySchedOp s) := by
  induction ops with
  | nil => intro s h; exact h
  | cons op rest ih =>
    intro s h
    exact ih _ (schedInv_apply s op h)

/-- C7: after any sequence of `awakened` and `pick_next` operations from the
initial scheduler state, `counter_` equals the number of non-dispatcher
fibers linked in the ready queue, and consequently `has_ready_fibers()`
returns true exactly when some non-dispatcher fiber is ready. -/
theorem sched_counter_invariant (ops : List SchedOp) :
    (ops.foldl applySchedOp schedStart).counter =
      readyCount (ops.foldl applySchedOp schedStart) ∧
    (has_ready_fibers (ops.foldl applySchedOp schedStart) = true ↔
      ∃ f ∈ (ops.foldl applySchedOp schedStart).rqueue, f.dispatcher = false) := by
  have hinv : schedInv (ops.foldl applySchedOp schedStart) :=
    schedInv_foldl ops schedStart rfl
  refine ⟨hinv, ?_⟩
  unfold schedInv readyCount at hinv
  unfold has_ready_fibers
  rw [hinv]
  rw [decide_eq_true_iff, ← List.countP_eq_length_filter, List.countP_pos_iff]
  constructor
  · rintro ⟨f, hf, hp⟩
    exact ⟨f, hf, by simpa using hp⟩
  · rintro ⟨f, hf, hp⟩
    exact ⟨f, hf, by simpa using hp⟩

/-! ### URingManager drain loop

Embedded from `URingManager::Run`.  One loop iteration submits any pending
SQEs, waits for one CQE (the wait result is either success, `-EINTR`, or
another negative errno which is a `LOG(FATAL)` abort), batch-peeks at most
32 completions into a local array, and for each completion reads its
`res` and user-data pointer, advances the CQ head by one, and invokes the
callback of the looked-up event when the pointer is non-null.  An
execution is a list of iterations, each carrying the number of SQEs the
fibers queued since the last submit, the wait outcome, and the completions
sitting on the CQ ring when the batch-peek runs. -/

structure Cqe where
  res : Int
  userData : Option Nat
deriving DecidableEq, Repr

inductive WaitOutcome
  | ok
  | eintr
  | fatalErr (errno : Nat)
deriving DecidableEq, Repr

structure LoopIter where
  pendingSqes : Nat
  wait : WaitOutcome
  cqRing : List Cqe
deriving DecidableEq, Repr

inductive DrainExit
  | stillRunning
  | cleanBreak
  | fatalAbort
deriving DecidableEq, Repr

structure DrainResult where
  invoked : List (Nat × Int)
  submitted : Nat
  cqAdvanced : Nat
  exit : DrainExit
deriving DecidableEq, Repr

/-- Model of `io_uring_peek_batch_cqe` into a 32-entry array. -/
def peekBatch (it : LoopIter) : List Cqe := it.cqRing.take 32

/-- Callback invocations produced by one peeked batch: for each completion,
the event is looked up through the user-data pointer and, when non-null,
its callback runs with the completion result; null user data (a linked SQE)
invokes nothing. -/
def batchInvoked (batch : List Cqe) : List (Nat × Int) :=
  batch.filterMap fun c => c.userData.map fun d => (d, c.res)

/-- Embedding of `URingManager::Run`. -/
def drainLoop : List LoopIter → DrainResult
  | [] => ⟨[], 0, 0, .stillRunning⟩
  | it :: rest =>
    match it.wait with
    | .eintr => ⟨[], it.pendingSqes, 0, .cleanBreak⟩
    | .fatalErr _ => ⟨[], it.pendingSqes, 0, .fatalAbort⟩
    | .ok =>
      let r := drainLoop rest
      ⟨batchInvoked (peekBatch it) ++ r.invoked,
       it.pendingSqes + r.submitted,
       (peekBatch it).length + r.cqAdvanced,
       r.exit⟩

def isOkIter : LoopIter → Bool
  | ⟨_, .ok, _⟩ => true
  | _ => false

/-- C5: the drain loop processes exactly the iterations before the first
failed wait.  Its callback invocations are the concatenation, in kernel
order, of each such iteration's batch; a batch holds at most 32
completions; within a batch, exactly the completions with non-null user
data invoke a callback, with their completion result, and the CQ head
advances once per peeked completion; every processed iteration's pending
SQEs are submitted, including those of the iteration whose wait fails; and
a wait failing with EINTR ends the loop cleanly, invoking no callback,
while any other errno is a fatal abort. -/
theorem drainLoop_spec (its : List LoopIter) (it : LoopIter) (batch : List Cqe) :
    (drainLoop its).invoked =
      ((its.takeWhile isOkIter).map fun j => batchInvoked (peekBatch j)).flatten ∧
    (drainLoop its).submitted =
      ((its.takeWhile isOkIter).map fun j => j.pendingSqes).sum +
        (match its.dropWhile isOkIter with
         | [] => 0
         | j :: _ => j.pendingSqes) ∧
    (drainLoop its).cqAdvanced =
      ((its.takeWhile isOkIter).map fun j => (peekBatch j).length).sum ∧
    (drainLoop its).exit =
      (match its.dropWhile isOkIter with
       | [] => DrainExit.stillRunning
       | j :: _ =>
         match j.wait with
         | .eintr => DrainExit.cleanBreak
         | _ => DrainExit.fatalAbort) ∧
    (peekBatch it).length ≤ 32 ∧
    batchInvoked batch =
      (batch.filter fun c => c.userData.isSome).map fun c =>
        (c.userData.getD 0, c.res) := by
  refine ⟨?_, ?_, ?_, ?_, ?_, ?_⟩
  · induction its with
    | nil => rfl
    | cons j rest ih =>
      cases hw : j.wait <;>
        simp [drainLoop, isOkIter, List.takeWhile, hw, ih] <;>
        cases j <;> simp_all [isOkIter, drainLoop]
  · induction its with
    | nil => rfl
    | cons j rest ih =>
      cases hw : j.wait <;>
        simp [drainLoop, isOkIter, List.takeWhile, List.dropWhile, hw, ih] <;>
        cases j <;> simp_all [isOkIter, drainLoop] <;> omega
  · induction its with
    | nil => rfl
    | cons j rest ih =>
      cases hw : j.wait <;>
        simp [drainLoop, isOkIter, List.takeWhile, hw, ih] <;>
        cases j <;> simp_all [isOkIter, drainLoop]
  · induction its with
    | nil => rfl
    | cons j rest ih =>
      cases hw : j.wait <;>
        simp [drainLoop, isOkIter, List.takeWhile, List.dropWhile, hw, ih] <;>
        cases j <;> simp_all [isOkIter, drainLoop]
  · exact (List.length_take_le 32 it.cqRing).trans (le_refl 32)
  · induction batch with
    | nil => rfl
    | cons c rest ih =>
      cases hd : c.userData <;>
        simp [batchInvoked, List.filterMap_cons, List.filter_cons, hd, ih,
          batchInvoked] at * <;> simp_all [batchInvoked]

/-! ### Pipeline::Executor::Stop and the worker fiber

Embedded from `Pipeline::Executor::Stop` and
`Pipeline::Executor::ProcessFiles`.  `Stop` closes the file-name queue (if
a run is active) and then sets `stop_early` on every reactor's per-reactor
state.  A worker fiber checks `stop_early` before each pop of the
file-name queue; a pop either yields a file name or reports the queue
closed.  The worker run is modelled by the sequence of flag values it
reads at its checks and the sequence of pop results it would receive, and
returns the list of files it actually processes, in order. -/

structure FileQueueState where
  closed : Bool
deriving DecidableEq, Repr

structure ExecutorState where
  fileNameQ : Option FileQueueState
  stopEarly : List Bool
deriving DecidableEq, Repr

/-- Embedding of `Pipeline::Executor::Stop`: with an active run, close the
file-name queue and set `stop_early` on every reactor. -/
def executorStop (e : ExecutorState) : ExecutorState :=
  match e.fileNameQ with
  | none => e
  | some q =>
    { fileNameQ := some { q with closed := true }
      stopEarly := e.stopEarly.map fun _ => true }

/-- Embedding of the `Pipeline::Executor::ProcessFiles` loop:
`while (!stop_early) { pop; if closed break; ProcessFile(file); }`. -/
def processFiles : List Bool → List (Option String) → List String
  | true :: _, _ => []
  | false :: _, [] => []
  | false :: _, none :: _ => []
  | false :: fs, some f :: ps => f :: processFiles fs ps
  | [], _ => []

/-- C8: `Stop()` on an active run closes the file-name queue and sets the
`stop_early` flag on every reactor; a worker that reads the flag as set at
its next check processes no further file; and in general a worker run is
entirely determined by the flag checks before the first one that reads
true — files popped after that point are never processed. -/
theorem executorStop_stops_workers (e : ExecutorState) (q : FileQueueState)
    (flags : List Bool) (pops : List (Option String)) (h : e.fileNameQ = some q) :
    (executorStop e).fileNameQ = some { q with closed := true } ∧
    (∀ b ∈ (executorStop e).stopEarly, b = true) ∧
    processFiles (true :: flags) pops = [] ∧
    processFiles flags pops = processFiles (flags.takeWhile fun b => !b) pops := by
  refine ⟨?_, ?_, rfl, ?_⟩
  · simp [executorStop, h]
  · intro b hb
    simp [executorStop, h] at hb
    exact hb.2
  · induction flags generalizing pops with
    | nil => rfl
    | cons b fs ih =>
      cases b with
      | true => rfl
      | false =>
        cases pops with
        | nil => rfl
        | cons p ps =>
          cases p with
          | none => rfl
          | some f => simp [processFiles, List.takeWhile, ih]

/-- Witness for C8 at a concrete executor state, flag schedule and pop
sequence. -/
theorem executorStop_stops_workers_witness :
    (executorStop ⟨some ⟨false⟩, [false, false]⟩).fileNameQ = some ⟨true⟩ ∧
    (∀ b ∈ (executorStop ⟨some ⟨false⟩, [false, false]⟩).stopEarly, b = true) ∧
    processFiles (true :: [false]) [some "a"] = [] ∧
    processFiles [false] [some "a"] =
      processFiles (List.takeWhile (fun b => !b) [false]) [some "a"] :=
  executorStop_stops_workers ⟨some ⟨false⟩, [false, false]⟩ ⟨false⟩ [false]
    [some "a"] rfl

/-! ### Pipeline::Executor::Run shutdown sequence

Embedded from `Pipeline::Executor::Run` and
`Pipeline::Executor::PerIoStruct::Shutdown`.  After all inputs are
enqueued, the main thread closes the file-name queue and then runs
`Shutdown` as a fiber on every reactor; each such fiber joins the worker
fibers, calls `StartClosing` on the record queue, joins the mapper fiber,
and flushes the per-reactor context, in that order.  The per-reactor
fibers run concurrently, so the global trace is the close event followed
by an arbitrary interleaving of the per-reactor sequences; the
interleaving is driven by a schedule naming which reactor steps next. -/

inductive PipeEvent
  | closeFileNameQueue
  | joinWorker (reactor : Nat)
  | startClosingRecordQueue (reactor : Nat)
  | joinMapper (reactor : Nat)
  | flushContext (reactor : Nat)
deriving DecidableEq, Repr

/-- Embedding of `PerIoStruct::Shutdown` on reactor `i`: join the worker
fibers, `StartClosing` the record queue, join the mapper, flush the
context. -/
def perIoShutdown (i : Nat) : List PipeEvent :=
  [.joinWorker i, .startClosingRecordQueue i, .joinMapper i, .flushContext i]

def eventReactor : PipeEvent → Option Nat
  | .closeFileNameQueue => none
  | .joinWorker i => some i
  | .startClosingRecordQueue i => some i
  | .joinMapper i => some i
  | .flushContext i => some i

/-- Interleaves the per-reactor event sequences: at each schedule entry the
named reactor emits its next pending event, if any. -/
def mergeFibers : List Nat → List (List PipeEvent) → List PipeEvent
  | [], _ => []
  | s :: rest, progs =>
    match progs[s]? with
    | some (e :: es) => e :: mergeFibers rest (progs.set s es)
    | _ => mergeFibers rest progs

/-- Embedding of the shutdown phase of `Pipeline::Executor::Run`: the main
thread closes the file-name queue, then every reactor runs
`PerIoStruct::Shutdown`, interleaved according to `sched`. -/
def runShutdownTrace (r : Nat) (sched : List Nat) : List PipeEvent :=
  PipeEvent.closeFileNameQueue :: mergeFibers sched ((List.range r).map perIoShutdown)

theorem eventReactor_perIoShutdown {j : Nat} {e : PipeEvent}
    (he : e ∈ perIoShutdown j) : eventReactor e = some j := by
  simp [perIoShutdown] at he
  rcases he with rfl | rfl | rfl | rfl <;> rfl

theorem mergeFibers_cons_step (progs : List (List PipeEvent)) (s : Nat)
    (rest : List Nat) (e : PipeEvent) (es : List PipeEvent)
    (hps : progs[s]? = some (e :: es)) :
    mergeFibers (s :: rest) progs = e :: mergeFibers rest (progs.set s es) := by
  show (match progs[s]? with
    | some (e :: es) => e :: mergeFibers rest (progs.set s es)
    | _ => mergeFibers rest progs) = e :: mergeFibers rest (progs.set s es)
  rw [hps]

theorem mergeFibers_cons_none (progs : List (List PipeEvent)) (s : Nat)
    (rest : List Nat) (hps : progs[s]? = none) :
    mergeFibers (s :: rest) progs = mergeFibers rest progs := by
  show (match progs[s]? with
    | some (e :: es) => e :: mergeFibers rest (progs.set s es)
    | _ => mergeFibers rest progs) = mergeFibers rest progs
  rw [hps]

theorem mergeFibers_cons_nil (progs : List (List PipeEvent)) (s : Nat)
    (rest : List Nat) (hps : progs[s]? = some []) :
    mergeFibers (s :: rest) progs = mergeFibers rest progs := by
  show (match progs[s]? with
    | some (e :: es) => e :: mergeFibers rest (progs.set s es)
    | _ => mergeFibers rest progs) = mergeFibers rest progs
  rw [hps]

theorem mergeFibers_proj (i : Nat) :
    ∀ (sched : List Nat) (progs : List (List PipeEvent)),
      (∀ j pj, progs[j]? = some pj → ∀ e ∈ pj, eventReactor e = some j) →
      ∃ t, progs[i]?.getD [] =
        (mergeFibers sched progs).filter (fun e => decide (eventReactor e = some i))
          ++ t := by
  intro sched
  induction sched with
  | nil =>
    intro progs _
    exact ⟨progs[i]?.getD [], by simp [mergeFibers]⟩
  | cons s rest ih =>
    intro progs htags
    rcases hps : progs[s]? with _ | pj
    · rw [mergeFibers_cons_none progs s rest hps]
      exact ih progs htags
    · rcases pj with _ | ⟨e, es⟩
      · rw [mergeFibers_cons_nil progs s rest hps]
        exact ih progs htags
      · have hslen : s < progs.length := by
          rcases List.getElem?_eq_some_iff.1 hps with ⟨hl, _⟩
          exact hl
        have hte : eventReactor e = some s :=
          htags s (e :: es) hps e (List.mem_cons_self e es)
        have htags' : ∀ j pj, (progs.set s es)[j]? = some pj →
            ∀ e' ∈ pj, eventReactor e' = some j := by
          intro j pj hj e' he'
          by_cases hjs : j = s
          · subst hjs
            rw [List.getElem?_set_self hslen] at hj
            cases hj
            exact htags j (e :: es) hps e' (List.mem_cons_of_mem e he')
          · rw [List.getElem?_set_ne (fun hsj => hjs hsj.symm)] at hj
            exact htags j pj hj e' he'
        rcases ih (progs.set s es) htags' with ⟨t, ht⟩
        rw [mergeFibers_cons_step progs s rest e es hps]
        by_cases hsi : s = i
        · subst hsi
          rw [List.getElem?_set_self hslen] at ht
          simp only [Option.getD_some] at ht
          refine ⟨t, ?_⟩
          rw [hps]
          simp only [Option.getD_some, List.filter_cons, hte]
          rw [if_pos (by simp)]
          rw [List.cons_append]
          exact congrArg (List.cons e) ht
        · rw [List.getElem?_set_ne hsi] at ht
          refine ⟨t, ?_⟩
          rw [List.filter_cons, hte]
          rw [if_neg (by simp [hsi])]
          exact ht

/-- C4: in every interleaved execution of the shutdown phase, the trace
starts with the closing of the file-name queue, and the events of each
reactor `i < r` occur exactly in the order: worker fibers joined, record
queue `StartClosing`, mapper fiber joined, per-reactor context flushed
(the filtered trace is an initial segment of that per-reactor program). -/
theorem pipeline_shutdown_order (r : Nat) (sched : List Nat) (i : Nat) (h : i < r) :
    (runShutdownTrace r sched).head? = some PipeEvent.closeFileNameQueue ∧
    ∃ t, perIoShutdown i =
      (runShutdownTrace r sched).filter (fun e => decide (eventReactor e = some i))
        ++ t := by
  constructor
  · rfl
  · have htags : ∀ j pj, ((List.range r).map perIoShutdown)[j]? = some pj →
        ∀ e ∈ pj, eventReactor e = some j := by
      intro j pj hj e he
      rw [List.getElem?_map] at hj
      by_cases hjr : j < r
      · rw [List.getElem?_range hjr] at hj
        simp only [Option.map_some'] at hj
        cases hj
        exact eventReactor_perIoShutdown he
      · have hnone : (List.range r)[j]? = none := by
          apply List.getElem?_eq_none
          simpa [List.length_range] using Nat.le_of_not_lt hjr
        rw [hnone] at hj
        simp at hj
    rcases mergeFibers_proj i sched ((List.range r).map perIoShutdown) htags
      with ⟨t, ht⟩
    rw [List.getElem?_map, List.getElem?_range h] at ht
    simp only [Option.map_some', Option.getD_some] at ht
    have hfe : (runShutdownTrace r sched).filter
        (fun e => decide (eventReactor e = some i)) =
        (mergeFibers sched ((List.range r).map perIoShutdown)).filter
          (fun e => decide (eventReactor e = some i)) := by
      unfold runShutdownTrace
      rw [List.filter_cons]
      simp [eventReactor]
    refine ⟨t, ?_⟩
    rw [hfe]
    exact ht

/-- Witness for C4 at two reactors, a concrete alternating schedule, and
reactor 0. -/
theorem pipeline_shutdown_order_witness :
    (runShutdownTrace 2 [0, 1, 0, 1, 0, 1, 0, 1]).head? =
      some PipeEvent.closeFileNameQueue ∧
    ∃ t, perIoShutdown 0 =
      (runShutdownTrace 2 [0, 1, 0, 1, 0, 1, 0, 1]).filter
        (fun e => decide (eventReactor e = some 0)) ++ t :=
  pipeline_shutdown_order 2 [0, 1, 0, 1, 0, 1, 0, 1] 0 (by decide)

/-! ### VarzMapCount

Embedded from `VarzMapCount::IncBy`, `VarzMapCount::Set`,
`VarzMapCount::ReadLockAndFindOrInsert` and `VarzMapCount::GetData` in the
varz statistics source.  The hash map `map_counts_` is modelled as an
association list with unique keys; its iteration order is irrelevant
because `GetData` copies the entries and sorts them by key with
`std::sort` and comparator `l.first < r.first`.  Since the keys are
unique, the sorted permutation is unique, so any sorting algorithm gives
the observable result of `std::sort`; insertion sort is used here.
`ReadLockAndFindOrInsert` emplaces a zero entry for an absent key. -/

def updateValue (key : String) (f : Int → Int) (m : List (String × Int)) :
    List (String × Int) :=
  m.map fun kv => if kv.1 = key then (kv.1, f kv.2) else kv

def findOrInsert (key : String) (m : List (String × Int)) :
    List (String × Int) :=
  if key ∈ m.map Prod.fst then m else m ++ [(key, 0)]

/-- Embedding of `VarzMapCount::IncBy`: empty keys are rejected, a zero
delta is a no-op, otherwise find-or-insert then `fetch_add`. -/
def IncBy (key : String) (delta : Int) (m : List (String × Int)) :
    List (String × Int) :=
  if key = "" then m
  else if delta = 0 then m
  else updateValue key (fun v => v + delta) (findOrInsert key m)

/-- Embedding of `VarzMapCount::Set`: empty keys are rejected, otherwise
find-or-insert then `store`. -/
def Set (key : String) (value : Int) (m : List (String × Int)) :
    List (String × Int) :=
  if key = "" then m
  else updateValue key (fun _ => value) (findOrInsert key m)

inductive VarzOp
  | incBy (key : String) (delta : Int)
  | set (key : String) (value : Int)
deriving DecidableEq, Repr

def applyVarzOp (m : List (String × Int)) : VarzOp → List (String × Int)
  | .incBy k d => IncBy k d m
  | .set k v => Set k v m

def varzRun (ops : List VarzOp) : List (String × Int) :=
  ops.foldl applyVarzOp []

def keyLe (a b : String × Int) : Prop := a.1 ≤ b.1

instance : DecidableRel keyLe :=
  fun a b => inferInstanceAs (Decidable (a.1 ≤ b.1))

instance : IsTotal (String × Int) keyLe := ⟨fun a b => le_total a.1 b.1⟩

instance : IsTrans (String × Int) keyLe :=
  ⟨fun _ _ _ hab hbc => le_trans hab hbc⟩

/-- Embedding of `VarzMapCount::GetData`: copy the entries and sort them
ascending by key. -/
def GetData (m : List (String × Int)) : List (String × Int) :=
  List.insertionSort keyLe m

theorem map_fst_updateValue (key : String) (f : Int → Int)
    (m : List (String × Int)) :
    (updateValue key f m).map Prod.fst = m.map Prod.fst := by
  induction m with
  | nil => rfl
  | cons kv rest ih =>
    by_cases h : kv.1 = key <;> simp [updateValue, h] <;>
      simpa [updateValue] using ih

theorem nodup_keys_findOrInsert (key : String) (m : List (String × Int))
    (h : (m.map Prod.fst).Nodup) :
    ((findOrInsert key m).map Prod.fst).Nodup := by
  unfold findOrInsert
  split_ifs with hmem
  · exact h
  · rw [List.map_append]
    simp [List.nodup_append, h, hmem]

theorem nodup_keys_applyVarzOp (m : List (String × Int)) (op : VarzOp)
    (h : (m.map Prod.fst).Nodup) :
    ((applyVarzOp m op).map Prod.fst).Nodup := by
  cases op with
  | incBy k d =>
    show ((IncBy k d m).map Prod.fst).Nodup
    unfold IncBy
    split_ifs with h1 h2
    · exact h
    · exact h
    · rw [map_fst_updateValue]
      exact nodup_keys_findOrInsert k m h
  | set k v =>
    show ((Set k v m).map Prod.fst).Nodup
    unfold Set
    split_ifs with h1
    · exact h
    · rw [map_fst_updateValue]
      exact nodup_keys_findOrInsert k m h

theorem nodup_keys_foldl (ops : List VarzOp) :
    ∀ m : List (String × Int), (m.map Prod.fst).Nodup →
      ((ops.foldl applyVarzOp m).map Prod.fst).Nodup := by
  induction ops with
  | nil => intro m h; exact h
  | cons op rest ih =>
    intro m h
    exact ih _ (nodup_keys_applyVarzOp m op h)

/-- C10: for every map state reachable through `IncBy` and `Set` from the
empty map, `GetData` returns the entries sorted in ascending key order
(strictly, since keys are unique), as a permutation of the map contents,
and every key present in the map appears exactly once in the result. -/
theorem varz_getData_sorted (ops : List VarzOp) :
    List.Sorted keyLe (GetData (varzRun ops)) ∧
    List.Perm (GetData (varzRun ops)) (varzRun ops) ∧
    ((varzRun ops).map Prod.fst).Nodup ∧
    List.Pairwise (fun a b : String × Int => a.1 < b.1) (GetData (varzRun ops)) ∧
    ∀ k, k ∈ (varzRun ops).map Prod.fst →
      ((GetData (varzRun ops)).map Prod.fst).count k = 1 := by
  have hperm : List.Perm (GetData (varzRun ops)) (varzRun ops) :=
    List.perm_insertionSort keyLe (varzRun ops)
  have hnodup : ((varzRun ops).map Prod.fst).Nodup :=
    nodup_keys_foldl ops [] (by simp)
  have hnodup' : ((GetData (varzRun ops)).map Prod.fst).Nodup :=
    ((hperm.map Prod.fst).nodup_iff).2 hnodup
  have hsorted : List.Sorted keyLe (GetData (varzRun ops)) :=
    List.sorted_insertionSort keyLe (varzRun ops)
  refine ⟨hsorted, hperm, hnodup, ?_, ?_⟩
  · have hne : List.Pairwise (fun a b : String × Int => a.1 ≠ b.1)
        (GetData (varzRun ops)) := List.pairwise_map.1 hnodup'
    exact (hsorted.and hne).imp fun hab => lt_of_le_of_ne hab.1 hab.2
  · intro k hk
    rw [(hperm.map Prod.fst).count_eq]
    exact List.count_eq_one_of_mem hnodup hk

/-- Witness for C10 at a two-operation history and the key inserted last
(which sorts first). -/
theorem varz_getData_sorted_witness :
    "a" ∈ (varzRun [VarzOp.incBy "b" 2, VarzOp.incBy "a" 1]).map Prod.fst ∧
    ((GetData (varzRun [VarzOp.incBy "b" 2, VarzOp.incBy "a" 1])).map
      Prod.fst).count "a" = 1 :=
  ⟨by decide,
   (varz_getData_sorted [VarzOp.incBy "b" 2, VarzOp.incBy "a" 1]).2.2.2.2 "a"
     (by decide)⟩

/-! ### Done: condition variable plus flag

Embedded from `struct Done` in examples/asio_fibers.cc.  `wait()` locks the
mutex and runs `cond.wait(lock, [this]{ return ready; })`: it checks the
flag under the mutex, and either returns (releasing the lock as the caller
scope ends) or atomically releases the mutex and blocks on the condition
variable, re-acquiring and re-checking when notified.  `notify()` locks the
mutex, sets `ready = true`, releases the mutex, and then calls
`cond.notify_one()`.  The two threads are modelled as program counters and
every interleaving of their atomic steps is explored. -/

inductive WaiterPc
  | wIdle
  | wLocked
  | wBlocked
  | wWoken
  | wDone
deriving DecidableEq, Repr

inductive NotifierPc
  | nIdle
  | nLocked
  | nSet
  | nReleased
  | nDone
deriving DecidableEq, Repr

inductive MutexOwner
  | free
  | byWaiter
  | byNotifier
deriving DecidableEq, Repr

structure DoneState where
  ready : Bool
  mutex : MutexOwner
  w : WaiterPc
  n : NotifierPc
deriving DecidableEq, Repr

def doneStart : DoneState := ⟨false, .free, .wIdle, .nIdle⟩

/-- One atomic step of either thread: the successor states of `s`.
Waiter: acquire the mutex; check the flag under the mutex and either finish
or atomically release and block; re-acquire after being woken.  Notifier:
acquire the mutex; set the flag; release; `notify_one`, which moves a
blocked waiter to woken and is a no-op otherwise. -/
def doneNext (s : DoneState) : List DoneState :=
  (if s.w = .wIdle ∧ s.mutex = .free then
    [{ s with w := .wLocked, mutex := .byWaiter }] else []) ++
  (if s.w = .wLocked ∧ s.ready = true then
    [{ s with w := .wDone, mutex := .free }] else []) ++
  (if s.w = .wLocked ∧ s.ready = false then
    [{ s with w := .wBlocked, mutex := .free }] else []) ++
  (if s.w = .wWoken ∧ s.mutex = .free then
    [{ s with w := .wLocked, mutex := .byWaiter }] else []) ++
  (if s.n = .nIdle ∧ s.mutex = .free then
    [{ s with n := .nLocked, mutex := .byNotifier }] else []) ++
  (if s.n = .nLocked then [{ s with ready := true, n := .nSet }] else []) ++
  (if s.n = .nSet then [{ s with mutex := .free, n := .nReleased }] else []) ++
  (if s.n = .nReleased then
    [{ s with n := .nDone, w := if s.w = .wBlocked then .wWoken else s.w }]
  else [])

def reachStep (l : List DoneState) : List DoneState :=
  (l ++ (l.map doneNext).flatten).dedup

def reachIter : Nat → List DoneState
  | 0 => [doneStart]
  | k + 1 => reachStep (reachIter k)

def reachSet : List DoneState := reachIter 12

inductive DoneReachable : DoneState → Prop
  | refl : DoneReachable doneStart
  | step {s t : DoneState} : DoneReachable s → t ∈ doneNext s → DoneReachable t

inductive DoneReachableFrom (s : DoneState) : DoneState → Prop
  | refl : DoneReachableFrom s s
  | step {u t : DoneState} : DoneReachableFrom s u → t ∈ doneNext u →
      DoneReachableFrom s t

theorem doneReach_closed : ∀ s ∈ reachSet, ∀ t ∈ doneNext s, t ∈ reachSet := by
  decide

theorem doneReachable_mem {s : DoneState} (h : DoneReachable s) : s ∈ reachSet := by
  induction h with
  | refl => decide
  | @step u v hu hv ih => exact doneReach_closed u ih v hv

theorem doneReachable_from {s t : DoneState} (hs : DoneReachable s)
    (h : DoneReachableFrom s t) : DoneReachable t := by
  induction h with
  | refl => exact hs
  | @step u v hu hv ih => exact DoneReachable.step ih hv

theorem nDone_preserved :
    ∀ s ∈ reachSet, ∀ t ∈ doneNext s, s.n = .nDone → t.n = .nDone := by
  decide

theorem nDone_from {s t : DoneState} (hs : DoneReachable s) (hn : s.n = .nDone)
    (h : DoneReachableFrom s t) : t.n = .nDone := by
  induction h with
  | refl => exact hn
  | @step u v hu hv ih =>
    exact nDone_preserved u (doneReachable_mem (doneReachable_from hs hu)) v hv ih

theorem done_inv : ∀ s ∈ reachSet,
    (s.w = .wDone → s.ready = true) ∧
    (s.ready = true → s.n ≠ .nIdle ∧ s.n ≠ .nLocked) ∧
    (s.n = .nDone → s.w ≠ .wBlocked) := by
  decide

def notifyDoneWaitIdle : DoneState := ⟨true, .free, .wIdle, .nDone⟩

theorem done_notify_before_wait : ∀ s ∈ reachSet,
    s.n = .nDone → s.w = .wIdle → s = notifyDoneWaitIdle := by
  decide

theorem done_path :
    DoneReachableFrom notifyDoneWaitIdle
      (⟨true, .free, .wDone, .nDone⟩ : DoneState) :=
  @DoneReachableFrom.step notifyDoneWaitIdle
    ⟨true, .byWaiter, .wLocked, .nDone⟩ ⟨true, .free, .wDone, .nDone⟩
    (@DoneReachableFrom.step notifyDoneWaitIdle notifyDoneWaitIdle
      ⟨true, .byWaiter, .wLocked, .nDone⟩ DoneReachableFrom.refl (by decide))
    (by decide)

/-- C9: over every interleaving of one waiter and one notifier, `wait()`
returns only after `notify()` has set the ready flag; once `notify()` has
completed, the waiter is never left blocked on the condition variable
(no lost wakeup); and when `notify()` completes before `wait()` starts,
no continuation ever blocks the waiter and the waiter can run to
completion of `wait()`. -/
theorem done_no_lost_wakeup (s : DoneState) (hs : DoneReachable s) :
    (s.w = .wDone → s.ready = true ∧ s.n ≠ .nIdle ∧ s.n ≠ .nLocked) ∧
    (s.n = .nDone → s.w ≠ .wBlocked) ∧
    (s.n = .nDone → s.w = .wIdle →
      (∀ t, DoneReachableFrom s t → t.w ≠ .wBlocked) ∧
      (∃ t, DoneReachableFrom s t ∧ t.w = .wDone)) := by
  have hmem := doneReachable_mem hs
  have hinv := done_inv s hmem
  refine ⟨?_, hinv.2.2, ?_⟩
  · intro hw
    exact ⟨hinv.1 hw, hinv.2.1 (hinv.1 hw)⟩
  · intro hn hw
    constructor
    · intro t ht
      have htr : DoneReachable t := doneReachable_from hs ht
      have htn : t.n = .nDone := nDone_from hs hn ht
      exact (done_inv t (doneReachable_mem htr)).2.2 htn
    · have hs0 : s = notifyDoneWaitIdle := done_notify_before_wait s hmem hn hw
      subst hs0
      exact ⟨⟨true, .free, .wDone, .nDone⟩, done_path, rfl⟩

/-- Witness for C9 at the reachable state where `notify()` has completed
while `wait()` has not yet been called. -/
theorem done_no_lost_wakeup_witness :
    (notifyDoneWaitIdle.w = .wDone →
      notifyDoneWaitIdle.ready = true ∧ notifyDoneWaitIdle.n ≠ .nIdle ∧
        notifyDoneWaitIdle.n ≠ .nLocked) ∧
    (notifyDoneWaitIdle.n = .nDone → notifyDoneWaitIdle.w ≠ .wBlocked) ∧
    (notifyDoneWaitIdle.n = .nDone → notifyDoneWaitIdle.w = .wIdle →
      (∀ t, DoneReachableFrom notifyDoneWaitIdle t → t.w ≠ .wBlocked) ∧
      (∃ t, DoneReachableFrom notifyDoneWaitIdle t ∧ t.w = .wDone)) := by
  have h1 : DoneReachable (⟨false, .byNotifier, .wIdle, .nLocked⟩ : DoneState) :=
    DoneReachable.step DoneReachable.refl (by decide)
  have h2 : DoneReachable (⟨true, .byNotifier, .wIdle, .nSet⟩ : DoneState) :=
    DoneReachable.step h1 (by decide)
  have h3 : DoneReachable (⟨true, .free, .wIdle, .nReleased⟩ : DoneState) :=
    DoneReachable.step h2 (by decide)
  have h4 : DoneReachable notifyDoneWaitIdle :=
    DoneReachable.step h3 (by decide)
  exact done_no_lost_wakeup notifyDoneWaitIdle h4

end Gaia
